import Mathlib

/-!
Shallow embedding of the preset persistence and resynchronization engine
(`preset.cpp` of OoT3D_Randomizer): serialization of option values to an
XML document (`SavePreset`), the cursor-based resync loop that re-applies
a parsed document onto the live option list (`LoadPreset`), and the
storage-facing operations (`SaveSpecifiedPreset`, `DeletePreset`,
`CreatePresetDirectories`).

The XML layer (tinyxml2) is embedded as a root-element name plus an
ordered list of `(name, value)` entries.  File and archive I/O is embedded
as an explicit action trace, with the success of the underlying system
call passed in as a parameter.
-/

set_option autoImplicit false

/-- The option categories of `category.hpp` (`OptionCategory`). -/
inductive OptionCategory where
  | Setting
  | Cosmetic
  | Toggle
deriving DecidableEq

/-- Modelled from the spec: an Option of the external Option Provider.
It has a stable `name` (which may contain line breaks), a `category`
tag, a closed set of `choices`, and a current value `selectedText`
represented as display text. -/
structure SettingOption where
  name : String
  category : OptionCategory
  choices : List String
  selectedText : String
deriving DecidableEq

/-- Modelled from the spec: `Option::IsCategory` — only options whose
category matches the requested operation participate. -/
def IsCategory (o : SettingOption) (category : OptionCategory) : Bool :=
  o.category = category

/-- Modelled from the spec: `Option::GetSelectedOptionText` — the current
value as display text. -/
def GetSelectedOptionText (o : SettingOption) : String :=
  o.selectedText

/-- Modelled from the spec: `Option::SetSelectedIndexByString` — set the
selection from text; leaves the option unchanged if the text does not
match any known choice. -/
def SetSelectedIndexByString (o : SettingOption) (text : String) : SettingOption :=
  if text ∈ o.choices then { o with selectedText := text } else o

/-- Modelled from the spec: `RemoveLineBreaks` of `utils.hpp` — strips
line-break characters from a name before comparison/storage. -/
def RemoveLineBreaks (s : String) : String :=
  ⟨s.data.filter fun c => c != '\n' && c != '\r'⟩

/-- One `<setting name="...">value</setting>` child element of the
document root. -/
structure PresetEntry where
  name : String
  value : String
deriving DecidableEq

/-- A parsed tinyxml2 document: the root element's name and its child
elements in document order. -/
structure XMLDoc where
  rootName : String
  entries : List PresetEntry
deriving DecidableEq

/-- The filesystem/archive calls an operation performs, in order. -/
inductive FsAction where
  | openArchive
  | closeArchive
  | createDir (path : String)
  | deleteFile (path : String)
  | writeFile (path : String) (doc : XMLDoc)
deriving DecidableEq

/-- `GetBasePath`: the base directory for each option category. -/
def GetBasePath (category : OptionCategory) : String :=
  match category with
  | .Setting => "/3ds/presets/oot3dr/settings/"
  | .Cosmetic => "/3ds/presets/oot3dr/cosmetics/"
  | .Toggle => ""

/-- `PresetPath`: `base(category) + name + ".xml"`. -/
def PresetPath (presetName : String) (category : OptionCategory) : String :=
  GetBasePath category ++ presetName ++ ".xml"

/-- The serialization half of `SavePreset` (lines 86–108): one child entry
per category-matching option, in traversal order, with the line-break
normalized name as attribute and the selected option text as body. -/
def SavePresetDoc (opts : List SettingOption) (category : OptionCategory) : XMLDoc :=
  { rootName := "settings"
    entries := (opts.filter fun o => IsCategory o category).map fun o =>
      { name := RemoveLineBreaks o.name, value := GetSelectedOptionText o } }

/-- `SavePreset`: serializes the category-matching options and writes the
document to the preset path; returns whether `SaveFile` succeeded
(`writeOk` embeds the result of the underlying write). -/
def SavePreset (writeOk : Bool) (opts : List SettingOption)
    (presetName : String) (category : OptionCategory) : Bool × List FsAction :=
  (writeOk, [FsAction.writeFile (PresetPath presetName category) (SavePresetDoc opts category)])

/-- `SaveSpecifiedPreset` (lines 190–196): guard against an empty preset
name, otherwise delegate to `SavePreset`. -/
def SaveSpecifiedPreset (writeOk : Bool) (opts : List SettingOption)
    (presetName : String) (category : OptionCategory) : Bool × List FsAction :=
  if presetName.isEmpty then (false, [])
  else SavePreset writeOk opts presetName category

/-- `DeletePreset` (lines 173–187): open the SD archive (failure of
`FSUSER_OpenArchive` embedded as `openOk = false`, acquiring nothing),
delete the preset file, and return.  The source returns without calling
`FSUSER_CloseArchive`. -/
def DeletePreset (openOk : Bool) (presetName : String)
    (category : OptionCategory) : Bool × List FsAction :=
  if openOk then
    (true, [FsAction.openArchive, FsAction.deleteFile (PresetPath presetName category)])
  else
    (false, [])

/-- `CreatePresetDirectories` (lines 41–64): open the SD archive, create
the directory tree, close the archive. -/
def CreatePresetDirectories (openOk : Bool) : Bool × List FsAction :=
  if openOk then
    (true, [FsAction.openArchive,
            FsAction.createDir "/3ds",
            FsAction.createDir "/3ds/presets",
            FsAction.createDir "/3ds/presets/oot3dr",
            FsAction.createDir "/3ds/presets/oot3dr/cosmetics",
            FsAction.createDir "/3ds/presets/oot3dr/settings",
            FsAction.closeArchive])
  else
    (false, [])

/-- The slow-path `while` loop of `LoadPreset` (lines 152–160): scan the
sibling list from the first child; on the first normalized-name match,
apply the entry's value and leave the cursor on the entry after the
matched one; if the scan exhausts the list, the cursor is null (`[]`). -/
def scanFrom (settingToFind : String) (o : SettingOption) :
    List PresetEntry → SettingOption × List PresetEntry
  | [] => (o, [])
  | e :: rest =>
    if settingToFind = RemoveLineBreaks e.name then
      (SetSelectedIndexByString o e.value, rest)
    else
      scanFrom settingToFind o rest

/-- The resync loop of `LoadPreset` (lines 130–168), over the flattened
`OPTION_MENU` traversal of live options.  The cursor `cur` is the
remaining sibling list of the root's children (`[]` is the null pointer);
`root` is the full child list, used by the slow-path rescan and by the
end-of-body reset.  `slow` counts entries into the slow-path scan
(instrumentation; `LoadPreset` discards it).  Dereferencing a null cursor
(`curNode->Attribute` with `curNode == nullptr`, possible when the root
has no children) is `none`. -/
def applyLoop (root : List PresetEntry) (category : OptionCategory) :
    List SettingOption → List PresetEntry → Nat →
    Option (List SettingOption × List PresetEntry × Nat)
  | [], cur, slow => some ([], cur, slow)
  | o :: rest, cur, slow =>
    if IsCategory o category then
      match cur with
      | [] => none
      | e :: curTail =>
        if RemoveLineBreaks o.name = RemoveLineBreaks e.name then
          (applyLoop root category rest (if curTail = [] then root else curTail) slow).map
            fun r => (SetSelectedIndexByString o e.value :: r.1, r.2)
        else
          (applyLoop root category rest
              (if (scanFrom (RemoveLineBreaks o.name) o root).2 = [] then root
               else (scanFrom (RemoveLineBreaks o.name) o root).2)
              (slow + 1)).map
            fun r => ((scanFrom (RemoveLineBreaks o.name) o root).1 :: r.1, r.2)
    else
      (applyLoop root category rest cur slow).map fun r => (o :: r.1, r.2)

/-- `LoadPreset` (lines 115–170): `parsed` is the outcome of
`XMLDocument::LoadFile` (`none` on any `XMLError`).  A parse failure or a
root element not named `"settings"` returns `false` with the options
untouched; otherwise the resync loop runs with the cursor initialized to
the root's first child.  The outer `none` is the null-cursor dereference
of the resync loop. -/
def LoadPreset (parsed : Option XMLDoc) (opts : List SettingOption)
    (category : OptionCategory) : Option (Bool × List SettingOption) :=
  match parsed with
  | none => some (false, opts)
  | some doc =>
    if doc.rootName = "settings" then
      (applyLoop doc.entries category opts doc.entries 0).map fun r => (true, r.1)
    else
      some (false, opts)

/-- The first entry of `l` whose normalized name is `n` — the entry "saved
for" a name, used to state what the resync loop assigns. -/
def findEntry (n : String) : List PresetEntry → Option PresetEntry
  | [] => none
  | e :: rest => if n = RemoveLineBreaks e.name then some e else findEntry n rest

/-- The per-option result the resync loop is claimed to compute when every
category-matching option's name is present in the document: the value
saved for the option's normalized name. -/
def resyncApply (root : List PresetEntry) (category : OptionCategory)
    (o : SettingOption) : SettingOption :=
  if IsCategory o category then
    match findEntry (RemoveLineBreaks o.name) root with
    | some e => SetSelectedIndexByString o e.value
    | none => o
  else
    o

/-! ### Basic lemmas about the modelled Option Provider operations -/

theorem removeLineBreaks_example : RemoveLineBreaks "Foo\nBar" = "FooBar" := by decide

theorem setSelected_name (o : SettingOption) (t : String) :
    (SetSelectedIndexByString o t).name = o.name := by
  unfold SetSelectedIndexByString; split <;> rfl

theorem setSelected_category (o : SettingOption) (t : String) :
    (SetSelectedIndexByString o t).category = o.category := by
  unfold SetSelectedIndexByString; split <;> rfl

theorem setSelected_choices (o : SettingOption) (t : String) :
    (SetSelectedIndexByString o t).choices = o.choices := by
  unfold SetSelectedIndexByString; split <;> rfl

theorem isCategory_setSelected (o : SettingOption) (t : String) (c : OptionCategory) :
    IsCategory (SetSelectedIndexByString o t) c = IsCategory o c := by
  unfold IsCategory; rw [setSelected_category]

theorem setSelected_self (o : SettingOption) :
    SetSelectedIndexByString o (GetSelectedOptionText o) = o := by
  unfold SetSelectedIndexByString GetSelectedOptionText
  split <;> rfl

theorem setSelected_idem (o : SettingOption) (t : String) :
    SetSelectedIndexByString (SetSelectedIndexByString o t) t = SetSelectedIndexByString o t := by
  unfold SetSelectedIndexByString
  split <;> simp_all

theorem removeLineBreaks_idem (s : String) :
    RemoveLineBreaks (RemoveLineBreaks s) = RemoveLineBreaks s := by
  unfold RemoveLineBreaks
  rw [List.filter_filter]
  congr 1
  apply List.filter_congr
  intro c _
  cases h1 : c != '\n' <;> cases h2 : c != '\r' <;> simp [h1, h2]

/-! ### Lemmas about `findEntry` and the slow-path scan -/

theorem findEntry_mem {n : String} {e : PresetEntry} :
    ∀ {l : List PresetEntry}, findEntry n l = some e →
      e ∈ l ∧ RemoveLineBreaks e.name = n
  | [], h => by simp [findEntry] at h
  | e' :: rest, h => by
    by_cases hn : n = RemoveLineBreaks e'.name
    · simp [findEntry, hn] at h
      subst h
      exact ⟨List.mem_cons_self e' rest, hn.symm⟩
    · simp [findEntry, hn] at h
      rcases findEntry_mem h with ⟨h1, h2⟩
      exact ⟨List.mem_cons_of_mem e' h1, h2⟩

theorem findEntry_isSome_of_mem {n : String} {e : PresetEntry} :
    ∀ {l : List PresetEntry}, e ∈ l → RemoveLineBreaks e.name = n →
      ∃ e', findEntry n l = some e'
  | [], h, _ => by simp at h
  | e' :: rest, h, hn => by
    by_cases hc : n = RemoveLineBreaks e'.name
    · exact ⟨e', by simp [findEntry, hc]⟩
    · rcases List.mem_cons.mp h with h | h
      · subst h; exact absurd hn.symm hc
      · rcases findEntry_isSome_of_mem h hn with ⟨e'', h''⟩
        exact ⟨e'', by simp [findEntry, hc, h'']⟩

theorem scanFrom_fst (n : String) (o : SettingOption) :
    ∀ l : List PresetEntry,
      (scanFrom n o l).1 =
        match findEntry n l with
        | some e => SetSelectedIndexByString o e.value
        | none => o
  | [] => rfl
  | e :: rest => by
    by_cases hc : n = RemoveLineBreaks e.name
    · simp [scanFrom, findEntry, hc]
    · simp [scanFrom, findEntry, hc, scanFrom_fst n o rest]

theorem scanFrom_snd (n : String) (o₁ o₂ : SettingOption) :
    ∀ l : List PresetEntry, (scanFrom n o₁ l).2 = (scanFrom n o₂ l).2
  | [] => rfl
  | e :: rest => by
    by_cases hc : n = RemoveLineBreaks e.name
    · simp [scanFrom, hc]
    · simp [scanFrom, hc, scanFrom_snd n o₁ o₂ rest]

theorem scanFrom_suffix (n : String) (o : SettingOption) :
    ∀ l : List PresetEntry, List.IsSuffix (scanFrom n o l).2 l
  | [] => List.suffix_refl []
  | e :: rest => by
    by_cases hc : n = RemoveLineBreaks e.name
    · simp only [scanFrom, hc, if_pos rfl]
      exact List.suffix_cons e rest
    · simp only [scanFrom, if_neg hc]
      exact (scanFrom_suffix n o rest).trans (List.suffix_cons e rest)

/-! ### Basic lemmas about the resync loop -/

theorem applyLoop_nil (root : List PresetEntry) (category : OptionCategory)
    (cur : List PresetEntry) (slow : Nat) :
    applyLoop root category [] cur slow = some ([], cur, slow) := rfl

theorem applyLoop_skip {o : SettingOption} {category : OptionCategory}
    (root : List PresetEntry) (rest : List SettingOption)
    (cur : List PresetEntry) (slow : Nat) (h : IsCategory o category = false) :
    applyLoop root category (o :: rest) cur slow =
      (applyLoop root category rest cur slow).map fun r => (o :: r.1, r.2) := by
  simp [applyLoop, h]

theorem applyLoop_nocat {category : OptionCategory} {root : List PresetEntry} :
    ∀ {opts : List SettingOption} (cur : List PresetEntry) (slow : Nat),
      (∀ o ∈ opts, IsCategory o category = false) →
      applyLoop root category opts cur slow = some (opts, cur, slow)
  | [], cur, slow, _ => rfl
  | o :: rest, cur, slow, h => by
    rw [applyLoop_skip root rest cur slow (h o (List.mem_cons_self o rest))]
    rw [applyLoop_nocat cur slow fun o' ho' => h o' (List.mem_cons_of_mem o ho')]
    rfl

theorem applyLoop_isSome (category : OptionCategory) (root : List PresetEntry)
    (hroot : root ≠ []) :
    ∀ (opts : List SettingOption) (cur : List PresetEntry) (slow : Nat),
      cur ≠ [] → ∃ r, applyLoop root category opts cur slow = some r
  | [], cur, slow, _ => ⟨([], cur, slow), rfl⟩
  | o :: rest, cur, slow, hcur => by
    by_cases hcat : IsCategory o category
    · match cur, hcur with
      | e :: curTail, _ =>
        by_cases hname : RemoveLineBreaks o.name = RemoveLineBreaks e.name
        · have hnext : (if curTail = [] then root else curTail) ≠ [] := by
            split <;> simp_all
          rcases applyLoop_isSome category root hroot rest _ slow hnext with ⟨r, hr⟩
          refine ⟨(SetSelectedIndexByString o e.value :: r.1, r.2), ?_⟩
          simp [applyLoop, hcat, hname, hr]
        · have hnext :
              (if (scanFrom (RemoveLineBreaks o.name) o root).2 = [] then root
               else (scanFrom (RemoveLineBreaks o.name) o root).2) ≠ [] := by
            split <;> simp_all
          rcases applyLoop_isSome category root hroot rest _ (slow + 1) hnext with ⟨r, hr⟩
          refine ⟨((scanFrom (RemoveLineBreaks o.name) o root).1 :: r.1, r.2), ?_⟩
          simp [applyLoop, hcat, hname, hr]
    · rcases applyLoop_isSome category root hroot rest cur slow hcur with ⟨r, hr⟩
      refine ⟨(o :: r.1, r.2), ?_⟩
      simp only [Bool.not_eq_true] at hcat
      rw [applyLoop_skip root rest cur slow hcat, hr]
      rfl

theorem applyLoop_empty_none {category : OptionCategory} :
    ∀ {opts : List SettingOption} (slow : Nat),
      (∃ o ∈ opts, IsCategory o category = true) →
      applyLoop [] category opts [] slow = none
  | [], _, h => by simp at h
  | o :: rest, slow, h => by
    by_cases hcat : IsCategory o category
    · simp [applyLoop, hcat]
    · simp only [Bool.not_eq_true] at hcat
      rw [applyLoop_skip [] rest [] slow hcat]
      have : ∃ o' ∈ rest, IsCategory o' category = true := by
        rcases h with ⟨o', ho', hc⟩
        rcases List.mem_cons.mp ho' with h | h
        · subst h; rw [hcat] at hc; cases hc
        · exact ⟨o', h, hc⟩
      rw [applyLoop_empty_none slow this]
      rfl

theorem applyLoop_frame {category : OptionCategory} {root : List PresetEntry}
    {opts : List SettingOption} {cur : List PresetEntry} {slow : Nat}
    {res : List SettingOption × List PresetEntry × Nat}
    (h : applyLoop root category opts cur slow = some res) :
    List.Forall₂ (fun o o' => IsCategory o category = false → o' = o) opts res.1 := by
  induction opts generalizing cur slow res with
  | nil =>
    simp only [applyLoop_nil, Option.some.injEq] at h
    subst h
    exact List.Forall₂.nil
  | cons o rest ih =>
    by_cases hcat : IsCategory o category
    · match cur, h with
      | [], h => exact absurd h (by simp [applyLoop, hcat])
      | e :: curTail, h =>
        by_cases hname : RemoveLineBreaks o.name = RemoveLineBreaks e.name
        · simp only [applyLoop, hcat, if_true, if_pos hname, Option.map_eq_some'] at h
          rcases h with ⟨r, hr, hres⟩
          subst hres
          exact List.Forall₂.cons (fun hfalse => by rw [hcat] at hfalse; cases hfalse) (ih hr)
        · simp only [applyLoop, hcat, if_true, if_neg hname, Option.map_eq_some'] at h
          rcases h with ⟨r, hr, hres⟩
          subst hres
          exact List.Forall₂.cons (fun hfalse => by rw [hcat] at hfalse; cases hfalse) (ih hr)
    · simp only [Bool.not_eq_true] at hcat
      rw [applyLoop_skip root rest cur slow hcat, Option.map_eq_some'] at h
      rcases h with ⟨r, hr, hres⟩
      subst hres
      exact List.Forall₂.cons (fun _ => rfl) (ih hr)

theorem applyLoop_fast_step {category : OptionCategory} {root : List PresetEntry}
    {o : SettingOption} {e : PresetEntry}
    (hcat : IsCategory o category = true)
    (hname : RemoveLineBreaks o.name = RemoveLineBreaks e.name)
    (rest : List SettingOption) (curTail : List PresetEntry) (slow : Nat) :
    applyLoop root category (o :: rest) (e :: curTail) slow =
      (applyLoop root category rest (if curTail = [] then root else curTail) slow).map
        fun r => (SetSelectedIndexByString o e.value :: r.1, r.2) := by
  simp only [applyLoop, hcat, if_true, if_pos hname]

theorem applyLoop_slow_step {category : OptionCategory} {root : List PresetEntry}
    {o : SettingOption} {e : PresetEntry}
    (hcat : IsCategory o category = true)
    (hname : ¬ RemoveLineBreaks o.name = RemoveLineBreaks e.name)
    (rest : List SettingOption) (curTail : List PresetEntry) (slow : Nat) :
    applyLoop root category (o :: rest) (e :: curTail) slow =
      (applyLoop root category rest
          (if (scanFrom (RemoveLineBreaks o.name) o root).2 = [] then root
           else (scanFrom (RemoveLineBreaks o.name) o root).2) (slow + 1)).map
        fun r => ((scanFrom (RemoveLineBreaks o.name) o root).1 :: r.1, r.2) := by
  simp only [applyLoop, hcat, if_true, if_neg hname]

theorem filter_category_nil {category : OptionCategory} {l : List SettingOption}
    (h : (l.filter fun o => IsCategory o category) = []) :
    ∀ o ∈ l, IsCategory o category = false := by
  intro o ho
  by_cases hc : IsCategory o category
  · exact absurd (List.mem_filter.mpr ⟨ho, hc⟩) (by rw [h]; simp)
  · simpa using hc

theorem applyLoop_lockstep (category : OptionCategory) (root : List PresetEntry) :
    ∀ (opts : List SettingOption) (cur : List PresetEntry) (slow : Nat),
      cur = ((opts.filter fun o => IsCategory o category).map fun o =>
        { name := RemoveLineBreaks o.name, value := GetSelectedOptionText o }) →
      ∃ fc, applyLoop root category opts cur slow = some (opts, fc, slow)
  | [], cur, slow, hcur => by
    simp only [List.filter_nil, List.map_nil] at hcur
    exact ⟨cur, by rw [applyLoop_nil, hcur]⟩
  | o :: rest, cur, slow, hcur => by
    by_cases hcat : IsCategory o category
    · rw [List.filter_cons_of_pos (p := fun o' => IsCategory o' category) hcat,
        List.map_cons] at hcur
      subst hcur
      rw [applyLoop_fast_step hcat ((removeLineBreaks_idem o.name).symm) rest _ slow,
        setSelected_self]
      by_cases htail :
          ((rest.filter fun o => IsCategory o category).map fun o =>
            ({ name := RemoveLineBreaks o.name, value := GetSelectedOptionText o } :
              PresetEntry)) = []
      · have hrest : ∀ o' ∈ rest, IsCategory o' category = false :=
          filter_category_nil (List.map_eq_nil_iff.mp htail)
        refine ⟨root, ?_⟩
        rw [if_pos htail, applyLoop_nocat root slow hrest]
        rfl
      · rcases applyLoop_lockstep category root rest _ slow rfl with ⟨fc, hfc⟩
        refine ⟨fc, ?_⟩
        rw [if_neg htail, hfc]
        rfl
    · rw [List.filter_cons_of_neg (p := fun o' => IsCategory o' category)
        (by simpa using hcat)] at hcur
      rcases applyLoop_lockstep category root rest cur slow hcur with ⟨fc, hfc⟩
      refine ⟨fc, ?_⟩
      rw [applyLoop_skip root rest cur slow (by simpa using hcat), hfc]
      rfl

theorem applyLoop_nodrift {category : OptionCategory} {root : List PresetEntry} :
    ∀ (opts : List SettingOption) (cur : List PresetEntry) (slow : Nat),
      (cur.map fun e => RemoveLineBreaks e.name) =
        ((opts.filter fun o => IsCategory o category).map fun o => RemoveLineBreaks o.name) →
      ∃ os fc, applyLoop root category opts cur slow = some (os, fc, slow)
  | [], cur, slow, _ => ⟨[], cur, by rw [applyLoop_nil]⟩
  | o :: rest, cur, slow, hcur => by
    by_cases hcat : IsCategory o category
    · rw [List.filter_cons_of_pos (p := fun o' => IsCategory o' category) hcat,
        List.map_cons] at hcur
      match cur, hcur with
      | [], hcur => exact absurd hcur (by simp)
      | e :: curTail, hcur =>
        rw [List.map_cons, List.cons.injEq] at hcur
        obtain ⟨hname, htail⟩ := hcur
        rw [applyLoop_fast_step hcat hname.symm rest curTail slow]
        by_cases hct : curTail = []
        · subst hct
          have hrest : ∀ o' ∈ rest, IsCategory o' category = false :=
            filter_category_nil (List.map_eq_nil_iff.mp (htail.symm.trans List.map_nil))
          refine ⟨SetSelectedIndexByString o e.value :: rest, root, ?_⟩
          rw [if_pos rfl, applyLoop_nocat root slow hrest]
          rfl
        · rcases applyLoop_nodrift rest curTail slow htail with ⟨os, fc, hfc⟩
          refine ⟨SetSelectedIndexByString o e.value :: os, fc, ?_⟩
          rw [if_neg hct, hfc]
          rfl
    · rw [List.filter_cons_of_neg (p := fun o' => IsCategory o' category)
        (by simpa using hcat)] at hcur
      rcases applyLoop_nodrift rest cur slow hcur with ⟨os, fc, hfc⟩
      refine ⟨o :: os, fc, ?_⟩
      rw [applyLoop_skip root rest cur slow (by simpa using hcat), hfc]
      rfl

theorem resyncApply_neg {root : List PresetEntry} {category : OptionCategory}
    {o : SettingOption} (h : IsCategory o category = false) :
    resyncApply root category o = o := by
  simp [resyncApply, h]

theorem resyncApply_pos {root : List PresetEntry} {category : OptionCategory}
    {o : SettingOption} {e : PresetEntry} (h : IsCategory o category = true)
    (hfind : findEntry (RemoveLineBreaks o.name) root = some e) :
    resyncApply root category o = SetSelectedIndexByString o e.value := by
  simp [resyncApply, h, hfind]

theorem applyLoop_lookup {category : OptionCategory} {root : List PresetEntry}
    (hnodup : (root.map fun e => RemoveLineBreaks e.name).Nodup) :
    ∀ (opts : List SettingOption) (cur : List PresetEntry) (slow : Nat),
      List.IsSuffix cur root → (cur = [] → root = []) →
      (∀ o ∈ opts, IsCategory o category = true →
        ∃ e ∈ root, RemoveLineBreaks e.name = RemoveLineBreaks o.name) →
      ∃ fc sl, applyLoop root category opts cur slow =
        some (opts.map (resyncApply root category), fc, sl)
  | [], cur, slow, _, _, _ => ⟨cur, slow, by rw [applyLoop_nil]; rfl⟩
  | o :: rest, cur, slow, hsuf, hnil, hcov => by
    have hcovrest : ∀ o' ∈ rest, IsCategory o' category = true →
        ∃ e ∈ root, RemoveLineBreaks e.name = RemoveLineBreaks o'.name :=
      fun o' ho' => hcov o' (List.mem_cons_of_mem o ho')
    by_cases hcat : IsCategory o category
    · rcases hcov o (List.mem_cons_self o rest) hcat with ⟨e₀, he₀, hn₀⟩
      have hrootne : root ≠ [] := List.ne_nil_of_mem he₀
      have hcurne : cur ≠ [] := fun h => hrootne (hnil h)
      obtain ⟨e, curTail, rfl⟩ := List.exists_cons_of_ne_nil hcurne
      have hemem : e ∈ root := hsuf.subset (List.mem_cons_self e curTail)
      rcases findEntry_isSome_of_mem he₀ hn₀ with ⟨e', hfind⟩
      rcases findEntry_mem hfind with ⟨hmem', hn'⟩
      have hre : resyncApply root category o = SetSelectedIndexByString o e'.value :=
        resyncApply_pos hcat hfind
      by_cases hname : RemoveLineBreaks o.name = RemoveLineBreaks e.name
      · have hee : e' = e :=
          List.inj_on_of_nodup_map hnodup hmem' hemem (by rw [hn', hname])
        rw [hee] at hre
        rw [applyLoop_fast_step hcat hname rest curTail slow]
        have hsuf' : List.IsSuffix (if curTail = [] then root else curTail) root := by
          by_cases hct : curTail = []
          · rw [if_pos hct]
          · rw [if_neg hct]; exact (List.suffix_cons e curTail).trans hsuf
        have hnil' : (if curTail = [] then root else curTail) = [] → root = [] := by
          by_cases hct : curTail = []
          · rw [if_pos hct]; exact fun h => h
          · rw [if_neg hct]; exact fun h => absurd h hct
        rcases applyLoop_lookup hnodup rest _ slow hsuf' hnil' hcovrest with ⟨fc, sl, hfc⟩
        refine ⟨fc, sl, ?_⟩
        rw [hfc, List.map_cons, hre]
        rfl
      · rw [applyLoop_slow_step hcat hname rest curTail slow]
        have hscan1 : (scanFrom (RemoveLineBreaks o.name) o root).1 =
            SetSelectedIndexByString o e'.value := by
          rw [scanFrom_fst, hfind]
        have hsuf' : List.IsSuffix
            (if (scanFrom (RemoveLineBreaks o.name) o root).2 = [] then root
             else (scanFrom (RemoveLineBreaks o.name) o root).2) root := by
          by_cases hsc : (scanFrom (RemoveLineBreaks o.name) o root).2 = []
          · rw [if_pos hsc]
          · rw [if_neg hsc]; exact scanFrom_suffix (RemoveLineBreaks o.name) o root
        have hnil' :
            (if (scanFrom (RemoveLineBreaks o.name) o root).2 = [] then root
             else (scanFrom (RemoveLineBreaks o.name) o root).2) = [] → root = [] := by
          by_cases hsc : (scanFrom (RemoveLineBreaks o.name) o root).2 = []
          · rw [if_pos hsc]; exact fun h => h
          · rw [if_neg hsc]; exact fun h => absurd h hsc
        rcases applyLoop_lookup hnodup rest _ (slow + 1) hsuf' hnil' hcovrest with ⟨fc, sl, hfc⟩
        refine ⟨fc, sl, ?_⟩
        rw [hfc, List.map_cons, hre, hscan1]
        rfl
    · simp only [Bool.not_eq_true] at hcat
      rcases applyLoop_lookup hnodup rest cur slow hsuf hnil hcovrest with ⟨fc, sl, hfc⟩
      refine ⟨fc, sl, ?_⟩
      rw [applyLoop_skip root rest cur slow hcat, hfc, List.map_cons, resyncApply_neg hcat]
      rfl

theorem scanFrom_name (n : String) (o : SettingOption) (l : List PresetEntry) :
    ((scanFrom n o l).1).name = o.name := by
  rw [scanFrom_fst]
  cases findEntry n l with
  | none => rfl
  | some e => exact setSelected_name o e.value

theorem scanFrom_isCategory (n : String) (o : SettingOption) (l : List PresetEntry)
    (c : OptionCategory) : IsCategory ((scanFrom n o l).1) c = IsCategory o c := by
  rw [scanFrom_fst]
  cases findEntry n l with
  | none => rfl
  | some e => exact isCategory_setSelected o e.value c

theorem scanFrom_fst_idem (n : String) (o : SettingOption) (l : List PresetEntry) :
    (scanFrom n ((scanFrom n o l).1) l).1 = (scanFrom n o l).1 := by
  cases hf : findEntry n l with
  | none => rw [scanFrom_fst, hf]
  | some e =>
    rw [scanFrom_fst, hf, scanFrom_fst, hf]
    exact setSelected_idem o e.value

theorem applyLoop_idem_aux {category : OptionCategory} {root : List PresetEntry} :
    ∀ (opts : List SettingOption) (cur : List PresetEntry) (slow : Nat)
      (res : List SettingOption × List PresetEntry × Nat),
      applyLoop root category opts cur slow = some res →
      applyLoop root category res.1 cur slow = some res
  | [], cur, slow, res, h => by
    rw [applyLoop_nil] at h
    cases h
    rw [applyLoop_nil]
  | o :: rest, cur, slow, res, h => by
    by_cases hcat : IsCategory o category
    · match cur, h with
      | [], h => exact absurd h (by simp [applyLoop, hcat])
      | e :: curTail, h =>
        by_cases hname : RemoveLineBreaks o.name = RemoveLineBreaks e.name
        · rw [applyLoop_fast_step hcat hname rest curTail slow, Option.map_eq_some'] at h
          rcases h with ⟨r, hr, hres⟩
          subst hres
          have ih := applyLoop_idem_aux rest _ slow r hr
          rw [applyLoop_fast_step (o := SetSelectedIndexByString o e.value)
              ((isCategory_setSelected o e.value category).trans hcat)
              (by rw [setSelected_name]; exact hname) r.1 curTail slow,
            ih, Option.map_some']
          simp only [setSelected_idem]
        · rw [applyLoop_slow_step hcat hname rest curTail slow, Option.map_eq_some'] at h
          rcases h with ⟨r, hr, hres⟩
          subst hres
          have ih := applyLoop_idem_aux rest _ (slow + 1) r hr
          have hn' : RemoveLineBreaks ((scanFrom (RemoveLineBreaks o.name) o root).1).name =
              RemoveLineBreaks o.name := by rw [scanFrom_name]
          rw [applyLoop_slow_step (o := (scanFrom (RemoveLineBreaks o.name) o root).1)
              ((scanFrom_isCategory (RemoveLineBreaks o.name) o root category).trans hcat)
              (by rw [hn']; exact hname) r.1 curTail slow]
          rw [hn', scanFrom_snd (RemoveLineBreaks o.name)
              ((scanFrom (RemoveLineBreaks o.name) o root).1) o root,
            scanFrom_fst_idem, ih, Option.map_some']
    · simp only [Bool.not_eq_true] at hcat
      rw [applyLoop_skip root rest cur slow hcat, Option.map_eq_some'] at h
      rcases h with ⟨r, hr, hres⟩
      subst hres
      have ih := applyLoop_idem_aux rest cur slow r hr
      rw [applyLoop_skip root r.1 cur slow hcat, ih]
      rfl

/-! ### Claim theorems -/

/-- C1: when the document's entries have pairwise-distinct normalized
names and every category-matching live option's normalized name appears
among them — as for a document saved from options `[A,B,C]` replayed
against the reordered live list `[C,A,B]` — the resync loop of
`LoadPreset` assigns to every option exactly the value saved for its
name: the fast-path cursor comparison or the slow-path scan from the
start of the document finds each option's entry by normalized-name
equality. -/
theorem loadPreset_reordering (doc : XMLDoc) (opts : List SettingOption)
    (category : OptionCategory) (hroot : doc.rootName = "settings")
    (hnodup : (doc.entries.map fun e => RemoveLineBreaks e.name).Nodup)
    (hcover : ∀ o ∈ opts, IsCategory o category = true →
      ∃ e ∈ doc.entries, RemoveLineBreaks e.name = RemoveLineBreaks o.name) :
    LoadPreset (some doc) opts category =
      some (true, opts.map (resyncApply doc.entries category)) := by
  rcases applyLoop_lookup hnodup opts doc.entries 0 (List.suffix_refl _)
      (fun h => h) hcover with ⟨fc, sl, hfc⟩
  simp only [LoadPreset, if_pos hroot, hfc, Option.map_some']

theorem loadPreset_reordering_witness :
    LoadPreset (some ⟨"settings", [⟨"A", "2"⟩, ⟨"B", "1"⟩, ⟨"C", "2"⟩]⟩)
      [⟨"C", OptionCategory.Setting, ["1", "2"], "1"⟩,
       ⟨"A", OptionCategory.Setting, ["1", "2"], "1"⟩,
       ⟨"B", OptionCategory.Setting, ["1", "2"], "2"⟩] OptionCategory.Setting =
    some (true,
      [⟨"C", OptionCategory.Setting, ["1", "2"], "1"⟩,
       ⟨"A", OptionCategory.Setting, ["1", "2"], "1"⟩,
       ⟨"B", OptionCategory.Setting, ["1", "2"], "2"⟩].map
        (resyncApply [⟨"A", "2"⟩, ⟨"B", "1"⟩, ⟨"C", "2"⟩] OptionCategory.Setting)) :=
  loadPreset_reordering ⟨"settings", [⟨"A", "2"⟩, ⟨"B", "1"⟩, ⟨"C", "2"⟩]⟩
    [⟨"C", OptionCategory.Setting, ["1", "2"], "1"⟩,
     ⟨"A", OptionCategory.Setting, ["1", "2"], "1"⟩,
     ⟨"B", OptionCategory.Setting, ["1", "2"], "2"⟩] OptionCategory.Setting
    rfl (by decide) (by decide)

/-- C4: applying the same parsed document twice in succession to the same
live option set yields the same final option values as applying it once:
any successful outcome of `LoadPreset` is a fixed point of re-applying
the same document. -/
theorem loadPreset_idempotent (parsed : Option XMLDoc) (opts : List SettingOption)
    (category : OptionCategory) (b : Bool) (os : List SettingOption)
    (h : LoadPreset parsed opts category = some (b, os)) :
    LoadPreset parsed os category = some (b, os) := by
  cases parsed with
  | none =>
    simp only [LoadPreset, Option.some.injEq, Prod.mk.injEq] at h
    simp only [LoadPreset, Option.some.injEq, Prod.mk.injEq]
    exact ⟨h.1, trivial⟩
  | some doc =>
    by_cases hroot : doc.rootName = "settings"
    · simp only [LoadPreset, if_pos hroot, Option.map_eq_some', Prod.mk.injEq] at h
      rcases h with ⟨r, hr, hb, hos⟩
      have h2 := applyLoop_idem_aux opts doc.entries 0 r hr
      rw [hos] at h2
      simp only [LoadPreset, if_pos hroot, h2, Option.map_some', ← hb, hos]
    · simp only [LoadPreset, if_neg hroot, Option.some.injEq, Prod.mk.injEq] at h
      simp only [LoadPreset, if_neg hroot, Option.some.injEq, Prod.mk.injEq]
      exact ⟨h.1, trivial⟩

theorem loadPreset_idempotent_witness :
    LoadPreset (some ⟨"settings", [⟨"A", "y"⟩]⟩)
      [⟨"A", OptionCategory.Setting, ["x", "y"], "y"⟩] OptionCategory.Setting =
      some (true, [⟨"A", OptionCategory.Setting, ["x", "y"], "y"⟩]) :=
  loadPreset_idempotent (some ⟨"settings", [⟨"A", "y"⟩]⟩)
    [⟨"A", OptionCategory.Setting, ["x", "y"], "x"⟩] OptionCategory.Setting true
    [⟨"A", OptionCategory.Setting, ["x", "y"], "y"⟩] (by decide)

/-- C2: `SavePreset` immediately followed by `LoadPreset` of the same
`(name, category)`, with no change to the option list in between,
succeeds and leaves every option of that category with exactly the value
it had before the save: the document `SavePreset` writes to the preset
path replays through the resync loop as the identity on the live
options. -/
theorem savePreset_loadPreset_roundtrip (writeOk : Bool) (opts : List SettingOption)
    (presetName : String) (category : OptionCategory) :
    (SavePreset writeOk opts presetName category).2 =
      [FsAction.writeFile (PresetPath presetName category) (SavePresetDoc opts category)] ∧
    LoadPreset (some (SavePresetDoc opts category)) opts category = some (true, opts) := by
  refine ⟨rfl, ?_⟩
  rcases applyLoop_lockstep category (SavePresetDoc opts category).entries opts
      (SavePresetDoc opts category).entries 0 rfl with ⟨fc, hfc⟩
  simp only [LoadPreset, if_pos rfl, hfc]
  rfl

/-- C5: if the document's entry order equals the category-filtered live
traversal order — entry `i`'s normalized name equals live option `i`'s
normalized name, same count — every iteration of the resync loop takes
the fast path: the loop completes and the slow-path scan counter stays at
its initial value `0`. -/
theorem applyLoop_no_drift_fast_path (root : List PresetEntry)
    (opts : List SettingOption) (category : OptionCategory)
    (h : (root.map fun e => RemoveLineBreaks e.name) =
      ((opts.filter fun o => IsCategory o category).map fun o => RemoveLineBreaks o.name)) :
    ∃ os fc, applyLoop root category opts root 0 = some (os, fc, 0) :=
  applyLoop_nodrift opts root 0 h

theorem applyLoop_no_drift_fast_path_witness :
    ∃ os fc, applyLoop [⟨"A", "1"⟩, ⟨"B", "2"⟩] OptionCategory.Setting
      [⟨"A", OptionCategory.Setting, ["1", "2"], "2"⟩,
       ⟨"B", OptionCategory.Setting, ["1", "2"], "1"⟩]
      [⟨"A", "1"⟩, ⟨"B", "2"⟩] 0 = some (os, fc, 0) :=
  applyLoop_no_drift_fast_path [⟨"A", "1"⟩, ⟨"B", "2"⟩]
    [⟨"A", OptionCategory.Setting, ["1", "2"], "2"⟩,
     ⟨"B", OptionCategory.Setting, ["1", "2"], "1"⟩]
    OptionCategory.Setting (by decide)

/-- C3: if the file parses but the root element is not named `"settings"`,
`LoadPreset` returns `false` and no option is mutated — the prior
in-memory option state is preserved unchanged. -/
theorem loadPreset_root_mismatch (doc : XMLDoc) (opts : List SettingOption)
    (category : OptionCategory) (h : doc.rootName ≠ "settings") :
    LoadPreset (some doc) opts category = some (false, opts) := by
  simp [LoadPreset, h]

theorem loadPreset_root_mismatch_witness :
    XMLDoc.rootName ⟨"presets", [⟨"A", "x"⟩]⟩ ≠ "settings" ∧
      LoadPreset (some ⟨"presets", [⟨"A", "x"⟩]⟩)
        [⟨"A", OptionCategory.Setting, ["x", "y"], "y"⟩] OptionCategory.Setting =
        some (false, [⟨"A", OptionCategory.Setting, ["x", "y"], "y"⟩]) :=
  ⟨by decide,
   loadPreset_root_mismatch ⟨"presets", [⟨"A", "x"⟩]⟩
     [⟨"A", OptionCategory.Setting, ["x", "y"], "y"⟩] OptionCategory.Setting (by decide)⟩

/-- C7: `SaveSpecifiedPreset` with an empty preset name returns `false`
and performs no I/O: the action trace is empty, so neither serialization
nor the write to the preset path is reached. -/
theorem saveSpecifiedPreset_empty_name (writeOk : Bool) (opts : List SettingOption)
    (presetName : String) (category : OptionCategory) (h : presetName.isEmpty = true) :
    SaveSpecifiedPreset writeOk opts presetName category = (false, []) := by
  simp [SaveSpecifiedPreset, h]

theorem saveSpecifiedPreset_empty_name_witness :
    String.isEmpty "" = true ∧
      SaveSpecifiedPreset true [⟨"A", OptionCategory.Setting, ["x"], "x"⟩] ""
        OptionCategory.Setting = (false, []) :=
  ⟨by decide,
   saveSpecifiedPreset_empty_name true [⟨"A", OptionCategory.Setting, ["x"], "x"⟩] ""
     OptionCategory.Setting (by decide)⟩

/-- C8 (code evaluated at the failing input): `DeletePreset` opens the SD
archive and returns without ever emitting a close — unlike
`CreatePresetDirectories`, which closes the archive it opens.  This
contradicts the claim that every operation closes the storage handle it
opens before returning. -/
theorem deletePreset_leaks_archive :
    FsAction.openArchive ∈ (DeletePreset true "MyPreset" OptionCategory.Setting).2 ∧
    FsAction.closeArchive ∉ (DeletePreset true "MyPreset" OptionCategory.Setting).2 ∧
    FsAction.openArchive ∈ (CreatePresetDirectories true).2 ∧
    FsAction.closeArchive ∈ (CreatePresetDirectories true).2 := by
  decide

/-- C9: with a successfully parsed document whose `<settings>` root has
zero child elements, the first category-matching live option dereferences
the null cursor (no guard precedes `curNode->Attribute`), so the resync
loop crashes (`none`); with at least one child entry the cursor is
non-null at every dereference and the loop always completes. -/
theorem loadPreset_empty_doc_null_deref (opts : List SettingOption)
    (category : OptionCategory) (doc : XMLDoc) (hroot : doc.rootName = "settings") :
    (doc.entries = [] → (∃ o ∈ opts, IsCategory o category = true) →
      LoadPreset (some doc) opts category = none) ∧
    (doc.entries ≠ [] → ∃ r, LoadPreset (some doc) opts category = some r) := by
  constructor
  · intro hempty hex
    simp only [LoadPreset, hroot, if_pos rfl, hempty]
    rw [applyLoop_empty_none 0 hex]
    rfl
  · intro hne
    rcases applyLoop_isSome category doc.entries hne opts doc.entries 0 hne with ⟨r, hr⟩
    exact ⟨(true, r.1), by simp [LoadPreset, hroot, hr]⟩

theorem loadPreset_empty_doc_null_deref_witness :
    LoadPreset (some ⟨"settings", []⟩)
      [⟨"A", OptionCategory.Setting, ["x"], "x"⟩] OptionCategory.Setting = none ∧
    (∃ r, LoadPreset (some ⟨"settings", [⟨"A", "x"⟩]⟩)
      [⟨"A", OptionCategory.Setting, ["x"], "x"⟩] OptionCategory.Setting = some r) :=
  ⟨(loadPreset_empty_doc_null_deref [⟨"A", OptionCategory.Setting, ["x"], "x"⟩]
      OptionCategory.Setting ⟨"settings", []⟩ rfl).1 rfl
      ⟨⟨"A", OptionCategory.Setting, ["x"], "x"⟩, by decide, by decide⟩,
   (loadPreset_empty_doc_null_deref [⟨"A", OptionCategory.Setting, ["x"], "x"⟩]
      OptionCategory.Setting ⟨"settings", [⟨"A", "x"⟩]⟩ rfl).2 (by decide)⟩

/-- C10 (counterexample): a successfully parsed document with root
`"settings"` and zero child entries does not make `LoadPreset` return
`true` — the resync loop dereferences the null cursor instead. -/
theorem loadPreset_c10_counterexample :
    LoadPreset (some ⟨"settings", []⟩)
      [⟨"A", OptionCategory.Setting, ["x"], "x"⟩] OptionCategory.Setting = none := by
  decide

/-- C10 (amended): whenever the file is read successfully, its root
element is named `"settings"`, and the resync loop completes — the
document has at least one child entry, or no live option matches the
category — `LoadPreset` returns `true`, regardless of how many entries
were matched. -/
theorem loadPreset_success_true (doc : XMLDoc) (opts : List SettingOption)
    (category : OptionCategory) (hroot : doc.rootName = "settings")
    (h : doc.entries ≠ [] ∨ ∀ o ∈ opts, IsCategory o category = false) :
    ∃ os, LoadPreset (some doc) opts category = some (true, os) := by
  cases h with
  | inl h =>
    rcases applyLoop_isSome category doc.entries h opts doc.entries 0 h with ⟨r, hr⟩
    exact ⟨r.1, by simp [LoadPreset, hroot, hr]⟩
  | inr h =>
    exact ⟨opts, by simp [LoadPreset, hroot, applyLoop_nocat doc.entries 0 h]⟩

theorem loadPreset_success_true_witness :
    ∃ os, LoadPreset (some ⟨"settings", [⟨"A", "x"⟩]⟩)
      [⟨"B", OptionCategory.Setting, ["x"], "x"⟩] OptionCategory.Setting = some (true, os) :=
  loadPreset_success_true ⟨"settings", [⟨"A", "x"⟩]⟩
    [⟨"B", OptionCategory.Setting, ["x"], "x"⟩] OptionCategory.Setting rfl
    (Or.inl (by decide))

/-- C6: an option whose category differs from the requested load category
is never mutated by `LoadPreset` — even if a document entry's name
matches — and skipped options do not advance the cursor: the loop body on
a non-matching option passes the cursor through unchanged. -/
theorem loadPreset_category_filter :
    (∀ (parsed : Option XMLDoc) (opts : List SettingOption) (category : OptionCategory)
        (b : Bool) (os : List SettingOption),
        LoadPreset parsed opts category = some (b, os) →
        List.Forall₂ (fun o o' => IsCategory o category = false → o' = o) opts os) ∧
    (∀ (root : List PresetEntry) (category : OptionCategory) (o : SettingOption)
        (rest : List SettingOption) (cur : List PresetEntry) (slow : Nat),
        IsCategory o category = false →
        applyLoop root category (o :: rest) cur slow =
          (applyLoop root category rest cur slow).map fun r => (o :: r.1, r.2)) := by
  constructor
  · intro parsed opts category b os h
    cases parsed with
    | none =>
      simp only [LoadPreset, Option.some.injEq, Prod.mk.injEq] at h
      rw [← h.2]
      exact List.forall₂_same.mpr fun o _ _ => rfl
    | some doc =>
      by_cases hroot : doc.rootName = "settings"
      · simp only [LoadPreset, if_pos hroot, Option.map_eq_some', Prod.mk.injEq] at h
        rcases h with ⟨r, hr, _, hos⟩
        rw [← hos]
        exact applyLoop_frame hr
      · simp only [LoadPreset, if_neg hroot, Option.some.injEq, Prod.mk.injEq] at h
        rw [← h.2]
        exact List.forall₂_same.mpr fun o _ _ => rfl
  · intro root category o rest cur slow h
    exact applyLoop_skip root rest cur slow h

theorem loadPreset_category_filter_witness :
    List.Forall₂ (fun o o' => IsCategory o OptionCategory.Setting = false → o' = o)
      [⟨"A", OptionCategory.Cosmetic, ["x", "y"], "x"⟩]
      [⟨"A", OptionCategory.Cosmetic, ["x", "y"], "x"⟩] :=
  loadPreset_category_filter.1 (some ⟨"settings", [⟨"A", "y"⟩]⟩)
    [⟨"A", OptionCategory.Cosmetic, ["x", "y"], "x"⟩] OptionCategory.Setting true
    [⟨"A", OptionCategory.Cosmetic, ["x", "y"], "x"⟩] (by decide)
